import Mathlib

/-!
Verification of the sudoku solver (`src/sudoku.py`).

The repository's own code builds the CSP variables and the 27 all-different
constraint groups and hands the search to an external constraint-programming
library (`pywrapcp.Solver` with `CHOOSE_FIRST_UNBOUND` / `ASSIGN_MIN_VALUE`).
Those parts of the repository are translated directly below; the external
solver's search, which is not part of this repository, is modelled from the
spec (§4.1-4.3): per-cell candidate domains, depth-first search choosing the
first unbound cell and the minimum candidate value, forward-checking
propagation, and the all-different groups as the hard consistency constraint.

A sudoku is a `List Nat` of digits (the Python lists of ints); `0` marks an
unknown cell.  A raised Python exception (e.g. the `IndexError` that an input
of wrong length provokes while the block constraints are built) is modelled
as `none`; a normal return of list `l` is `some l`.
-/

set_option maxRecDepth 100000

set_option maxHeartbeats 10000000

namespace Sudoku

def BLOCK_SIZE : Nat := 3

def PUZZLE_SIZE : Nat := BLOCK_SIZE ^ 2

/-- The width of one cell's slot in the packed domain store. -/
def FIELD : Nat := 2 ^ 16

/-- The candidate mask of `IntVar(1, PUZZLE_SIZE)`: bits `0..8` set, bit
`v - 1` standing for candidate value `v`. -/
def fullMask : Nat := 2 ^ PUZZLE_SIZE - 1

/-- The candidate mask of one input digit: a nonzero digit is the bound
variable `IntVar(number, number)`, a zero the full range `1..9`. -/
def maskOfDigit (number : Nat) : Nat :=
  if number ≠ 0 then 2 ^ (number - 1) else fullMask

/-- A domain store (spec §4.1): the per-cell sets of still-possible values,
packed into one natural number — cell `i`'s candidate set occupies bits
`16*i .. 16*i+15`, with bit `16*i + (v-1)` set iff value `v` is still
possible for cell `i`.  The packing keeps every intermediate state a
numeric literal, so the whole search can be replayed by the kernel. -/
abbrev DomState := Nat

/-- The candidate mask of cell `i`. -/
def getDom (st i : Nat) : Nat := st / FIELD ^ i % FIELD

/-- The state with cell `i`'s candidate mask replaced by `d`. -/
def setDom (st i d : Nat) : Nat :=
  st % FIELD ^ i + d * FIELD ^ i + st / FIELD ^ (i + 1) * FIELD ^ (i + 1)

/-- Whether value `v` is in candidate mask `d`. -/
def memMask (v d : Nat) : Bool := d.testBit (v - 1)

/-- Remove value `v` from candidate mask `d` (spec §4.1 `remove`). -/
def eraseMask (v d : Nat) : Nat := if memMask v d then d ^^^ 2 ^ (v - 1) else d

/-- The unique value of a bound cell's mask, `none` when the mask is not a
singleton.  A slot holds 16 bits, so only values `1..16` can occur. -/
def singleVal (d : Nat) : Option Nat :=
  (List.range' 1 16).find? (fun v => d == 2 ^ (v - 1))

/-- `var.Value()` of a bound variable: the value of a singleton mask. -/
def cellValue (d : Nat) : Nat := (singleVal d).getD 0

/-- Translation of `create_solver_vars` (src/sudoku.py:15-23): a fixed digit
`n ≠ 0` becomes the singleton domain `{n}` (`IntVar(number, number)`), a `0`
becomes the full domain `1..9` (`IntVar(1, PUZZLE_SIZE)`); cell `i` of the
sequence fills slot `i` of the packed store. -/
def create_solver_vars (sudoku : List Nat) : DomState :=
  sudoku.foldr (fun number st => st * FIELD + maskOfDigit number) 0

/-- The row-major slices `solver_vars[i:i+9]` for `i in range(0, 81, 9)`
(called `lines` in the source), over variable indices `0..n-1`.  A Python
slice past the end of the list is simply shorter, never an error. -/
def linesOf (n : Nat) : List (List Nat) :=
  (List.range PUZZLE_SIZE).map
    (fun k => (((List.range n).drop (k * PUZZLE_SIZE)).take PUZZLE_SIZE))

/-- Python's `zip(*ls)`: truncates every list to the length of the shortest
and transposes.  Used for `rows = zip(*lines)` (the column groups). -/
def pyZip (ls : List (List Nat)) : List (List Nat) :=
  let m : Nat := match ls.map List.length with
    | [] => 0
    | x :: xs => xs.foldl min x
  (List.range m).map (fun j => ls.map (fun l => l.getD j 0))

/-- `itertools.product(range(0, 9, 3), repeat=2)`: the `(block_x, block_y)`
pairs with `block_x` as the outer loop. -/
def blockCoords : List (Nat × Nat) :=
  ((List.range BLOCK_SIZE).map (· * BLOCK_SIZE)).flatMap
    (fun bx => ((List.range BLOCK_SIZE).map (· * BLOCK_SIZE)).map (fun c => (bx, c)))

/-- The block groups: `lines[y][x]` for `x, y` in
`product(range(bx, bx+3), range(by, by+3))` (src/sudoku.py:36-45).  The
indexing `lines[y][x]` raises `IndexError` when out of range, hence the
`Option`: `none` models the exception escaping `create_constraints`. -/
def blocksOf (n : Nat) : Option (List (List Nat)) :=
  let lines := linesOf n
  blockCoords.mapM (fun p =>
    (((List.range BLOCK_SIZE).map (· + p.1)).flatMap
      (fun x => ((List.range BLOCK_SIZE).map (· + p.2)).map (fun y => (x, y)))).mapM
      (fun q => (lines.get? q.2).bind (fun row => row.get? q.1)))

/-- Translation of `create_constraints` (src/sudoku.py:25-48) over variable
indices: the groups handed to `AllDifferent`, in the source's order
`chain(lines, rows, blocks)` — board rows first, then columns (named `rows`
in the source after `zip(*lines)`), then the 3x3 blocks. -/
def create_constraints (n : Nat) : Option (List (List Nat)) :=
  let lines := linesOf n
  let rows := pyZip lines
  match blocksOf n with
  | none => none
  | some blocks => some (lines ++ rows ++ blocks)

/-- Modelled from the spec: `isFixed` (§4.1) — a cell is bound when its
candidate mask holds exactly one value. -/
def isFixed (d : Nat) : Bool := (singleVal d).isSome

/-- Modelled from the spec: `CHOOSE_FIRST_UNBOUND` (§4.3 variable selection)
— scan the `count` cells from index `i` upward and return the first whose
mask is not a singleton. -/
def firstUnbound (st : DomState) : Nat → Nat → Option Nat
  | 0, _ => none
  | count + 1, i =>
    if isFixed (getDom st i) then firstUnbound st count (i + 1) else some i

/-- Pairwise distinctness of a list of values. -/
def allDistinct : List Nat → Bool
  | [] => true
  | x :: xs => !(xs.contains x) && allDistinct xs

/-- Modelled from the spec: `isConsistent` (§4.2) — no two fixed cells of
the group share a value. -/
def isConsistent (st : DomState) (group : List Nat) : Bool :=
  allDistinct (group.filterMap (fun j => singleVal (getDom st j)))

/-- The sole hard constraint (§4.2) over every group. -/
def allConsistent (groups : List (List Nat)) (st : DomState) : Bool :=
  groups.all (isConsistent st)

/-- Modelled from the spec: forward checking over one group (§4.2
`propagate`) — remove the bound value `v` of cell `i` from every other cell
of the group, failing with `none` (`DomainExhausted`) when a domain empties.
A peer thereby narrowed to a singleton holding only `w` has become bound in
turn, and is collected (as `(peer, w)`) for further propagation, mirroring
the constraint solver's propagation of newly bound variables to a
fixpoint. -/
def prunePeers (i v : Nat) :
    List Nat → DomState → List (Nat × Nat) → Option (DomState × List (Nat × Nat))
  | [], st, acc => some (st, acc)
  | j :: js, st, acc =>
    if j = i then prunePeers i v js st acc
    else
      let d := getDom st j
      if memMask v d then
        let d2 := eraseMask v d
        if d2 = 0 then none
        else
          match singleVal d2 with
          | some w => prunePeers i v js (setDom st j d2) ((j, w) :: acc)
          | none => prunePeers i v js (setDom st j d2) acc
      else prunePeers i v js st acc

/-- Forward checking of one bound cell through every group that contains it,
collecting the peers that become bound. -/
def pruneGroups (i v : Nat) :
    List (List Nat) → DomState → List (Nat × Nat) → Option (DomState × List (Nat × Nat))
  | [], st, acc => some (st, acc)
  | g :: gs, st, acc =>
    if i ∈ g then
      match prunePeers i v g st acc with
      | none => none
      | some (st2, acc2) => pruneGroups i v gs st2 acc2
    else pruneGroups i v gs st acc

/-- Modelled from the spec: `propagate` (§4.2) run to a fixpoint over a
worklist of newly bound cells, as the constraint solver does: each popped
`(cell, value)` is forward checked through its groups, and peers narrowed to
a single value are enqueued in turn.  `fuel` bounds the loop; every cell is
enqueued at most once per call, so the fuel used below never runs out. -/
def propagate (groups : List (List Nat)) :
    Nat → List (Nat × Nat) → DomState → Option DomState
  | 0, _, _ => none
  | _ + 1, [], st => some st
  | fuel + 1, (i, v) :: queue, st =>
    match pruneGroups i v groups st [] with
    | none => none
    | some (st2, newly) => propagate groups fuel (queue ++ newly) st2

/-- Modelled from the spec: the recursive search step (§4.3) over the `n`
cells — when every cell is bound the state is a solution provided the hard
constraint (§4.2 `isConsistent`, over every group) holds; otherwise assign
the first unbound cell its candidate values in ascending order
(`ASSIGN_MIN_VALUE`), forward check, and recurse, backtracking on failure.
`fuel` bounds the recursion depth; each level binds at least one further
cell, so `n + 1` levels always suffice. -/
def search (groups : List (List Nat)) (n : Nat) : Nat → DomState → Option DomState
  | 0, _ => none
  | fuel + 1, st =>
    match firstUnbound st n 0 with
    | none => if allConsistent groups st then some st else none
    | some i =>
      ((List.range' 1 16).filter (fun v => memMask v (getDom st i))).findSome? (fun v =>
        match propagate groups (n + 2) [(i, v)] (setDom st i (2 ^ (v - 1))) with
        | none => none
        | some st2 => search groups n fuel st2)

/-- The initially bound variables among the `n` cells, as a
`(cell, value)` worklist: the constraint solver propagates every constraint
over the already bound variables when the search starts, before the first
decision. -/
def boundQueue (n : Nat) (solver_vars : DomState) : List (Nat × Nat) :=
  (List.range n).filterMap (fun i =>
    (singleVal (getDom solver_vars i)).map (fun v => (i, v)))

/-- The digit sequence `[var.Value() for var in solver_vars]` of a fully
bound state over `n` cells. -/
def readValues (n : Nat) (st : DomState) : List Nat :=
  (List.range n).map (fun i => cellValue (getDom st i))

/-- Translation of `find_solution` (src/sudoku.py:50-63), the search itself
modelled from the spec: first the root propagation of the given digits (the
solver propagates the constraints over the bound variables when `NewSearch`
starts), then the depth-first search; returns
`[var.Value() for var in solver_vars]` when a solution is found and `[]`
otherwise. -/
def find_solution (groups : List (List Nat)) (n : Nat) (solver_vars : DomState) :
    List Nat :=
  match propagate groups (2 * n + 2) (boundQueue n solver_vars) solver_vars with
  | none => []
  | some st0 =>
    match search groups n (n + 1) st0 with
    | some st => readValues n st
    | none => []

/-- Translation of `solve` (src/sudoku.py:65-81): build the variables and
the constraints, search, and return `solution or sudoku` — the input itself
when the solution list is empty.  `none` models an escaping exception. -/
def solve (sudoku : List Nat) : Option (List Nat) :=
  match create_constraints sudoku.length with
  | none => none
  | some groups =>
    let solver_vars := create_solver_vars sudoku
    let solution := find_solution groups sudoku.length solver_vars
    some (if solution.isEmpty then sudoku else solution)

/-! ### Claim-level vocabulary

The groups as the spec's natural language describes them (row `r`, column
`c`, 3x3 block `b`, all row-major and zero-based), the value read out of a
result sequence, and the concrete puzzles the spec quotes. -/

/-- The 27 groups actually handed to `AllDifferent`, i.e. the content of
`create_constraints` for the 81-cell puzzle. -/
def groups81 : List (List Nat) := (create_constraints 81).getD []

/-- The cell indices of row `r`, row-major. -/
def rowCells (r : Nat) : List Nat := (List.range 9).map (fun c => 9 * r + c)

/-- The cell indices of column `c`. -/
def colCells (c : Nat) : List Nat := (List.range 9).map (fun r => 9 * r + c)

/-- The cell indices of the 3x3 block `b` (blocks numbered row-major). -/
def blockCells (b : Nat) : List Nat :=
  (List.range 9).map (fun k => 9 * (3 * (b / 3) + k / 3) + (3 * (b % 3) + k % 3))

/-- The digit of cell `j` in a result sequence. -/
def cellVal (out : List Nat) (j : Nat) : Nat := out.getD j 0

/-- Each value `1..9` occurs exactly once in every row, column and 3x3
block of `out` — the spec's uniqueness invariant, stated over the
claim-level groups. -/
def UniqueInGroups (out : List Nat) : Prop :=
  ∀ k < 9, ∀ v ∈ List.range' 1 9,
    ((rowCells k).map (cellVal out)).count v = 1 ∧
    ((colCells k).map (cellVal out)).count v = 1 ∧
    ((blockCells k).map (cellVal out)).count v = 1

/-- Modelled from the spec: a *valid completion* of an input puzzle — an
81-digit sequence agreeing with every nonzero given, with all digits in
`1..9`, satisfying the uniqueness invariant.  Used to state the
unsolvable-puzzle claim. -/
def IsCompletion (g s : List Nat) : Prop :=
  s.length = 81 ∧ (∀ i < 81, cellVal g i ≠ 0 → cellVal s i = cellVal g i) ∧
    (∀ i < 81, 1 ≤ cellVal s i ∧ cellVal s i ≤ 9) ∧ UniqueInGroups s

/-- The classic 81-digit puzzle of the spec's end-to-end example (the
spec's quotation of it is three digits short; this is the full puzzle). -/
def classicInput : List Nat :=
  [5,3,0,0,7,0,0,0,0,
   6,0,0,1,9,5,0,0,0,
   0,9,8,0,0,0,0,6,0,
   8,0,0,0,6,0,0,0,3,
   4,0,0,8,0,3,0,0,1,
   7,0,0,0,2,0,0,0,6,
   0,6,0,0,0,0,2,8,0,
   0,0,0,4,1,9,0,0,5,
   0,0,0,0,8,0,0,7,9]

/-- The solution of the classic puzzle. -/
def classicSolution : List Nat :=
  [5,3,4,6,7,8,9,1,2,
   6,7,2,1,9,5,3,4,8,
   1,9,8,3,4,2,5,6,7,
   8,5,9,7,6,1,4,2,3,
   4,2,6,8,5,3,7,9,1,
   7,1,3,9,2,4,8,5,6,
   9,6,1,5,3,7,2,8,4,
   2,8,7,4,1,9,6,3,5,
   3,4,5,2,8,6,1,7,9]

/-- The 78-digit sequence the spec literally quotes as the example input. -/
def quotedInput : List Nat :=
  [5,3,0,0,7,0,0,0,0,
   6,0,0,1,9,5,0,0,0,
   0,9,8,0,0,0,0,6,0,
   8,0,0,0,6,0,0,0,3,
   4,0,0,8,0,3,0,0,1,
   7,0,0,0,2,0,0,0,6,
   0,6,0,0,0,0,2,8,0,
   0,0,0,4,1,9,0,0,5,
   0,0,0,0,8,0]

/-- The 78-digit sequence the spec literally quotes as the example output. -/
def quotedOutput : List Nat :=
  [5,3,4,6,7,8,9,1,2,
   6,7,2,1,9,5,3,4,8,
   1,9,8,3,4,2,5,6,7,
   8,5,9,7,6,1,4,2,3,
   4,2,6,8,5,3,7,9,1,
   7,1,3,9,2,4,8,5,6,
   9,6,1,5,3,7,2,8,4,
   2,8,7,4,1,9,6,3,5,
   3,4,5,2,8,6]

/-- The solution the engine reaches from the all-zero board. -/
def emptyBoardSolution : List Nat :=
  [1,2,3,4,5,6,7,8,9,
   4,5,6,7,8,9,1,2,3,
   7,8,9,1,2,3,4,5,6,
   2,1,4,3,6,5,8,9,7,
   3,6,5,8,9,7,2,1,4,
   8,9,7,2,1,4,3,6,5,
   5,3,1,6,4,2,9,7,8,
   6,4,2,9,7,8,5,3,1,
   9,7,8,5,3,1,6,4,2]

/-- A full valid grid with the out-of-range digit `10` in cell 0: the
classic solution with its leading `5` replaced by `10`. -/
def overNineInput : List Nat :=
  [10,3,4,6,7,8,9,1,2,
   6,7,2,1,9,5,3,4,8,
   1,9,8,3,4,2,5,6,7,
   8,5,9,7,6,1,4,2,3,
   4,2,6,8,5,3,7,9,1,
   7,1,3,9,2,4,8,5,6,
   9,6,1,5,3,7,2,8,4,
   2,8,7,4,1,9,6,3,5,
   3,4,5,2,8,6,1,7,9]

/-- The unsolvable example input of the spec: cell 0 and cell 1 both `5`,
all other cells unknown. -/
def doubleFive : List Nat := 5 :: 5 :: List.replicate 79 0

/-- The classic solution with its last cell blanked — a solvable puzzle
whose solution differs from it. -/
def nearSolved : List Nat := classicSolution.set 80 0

/-- A length-80 input: the classic solution truncated by one digit. -/
def input80 : List Nat := classicSolution.take 80

/-- A length-82 input: the classic solution with an extra trailing cell. -/
def input82 : List Nat := classicSolution ++ [0]

/-- What the engine returns for `input82`: the 82nd variable is
unconstrained, so the search assigns it the minimum value 1. -/
def output82 : List Nat := classicSolution ++ [1]

/-! ### Field arithmetic of the packed domain store -/

theorem pow_FIELD_pos (i : Nat) : 0 < FIELD ^ i :=
  Nat.pos_pow_of_pos i (by decide)

theorem getDom_lt (st i : Nat) : getDom st i < FIELD :=
  Nat.mod_lt _ (by decide)

theorem getDom_add_mul_high (x c j k : Nat) (hjk : j < k) :
    getDom (x + c * FIELD ^ k) j = getDom x j := by
  unfold getDom
  have hk : FIELD ^ k = FIELD ^ j * FIELD ^ (k - j - 1) * FIELD := by
    rw [Nat.mul_assoc, ← Nat.pow_succ, ← Nat.pow_add]
    congr 1
    omega
  have harg : x + c * FIELD ^ k
      = x + FIELD ^ j * (c * FIELD ^ (k - j - 1) * FIELD) := by
    rw [hk]; ring
  rw [harg, Nat.add_mul_div_left _ _ (pow_FIELD_pos j)]
  have hshape : x / FIELD ^ j + c * FIELD ^ (k - j - 1) * FIELD
      = x / FIELD ^ j + (c * FIELD ^ (k - j - 1)) * FIELD := by ring
  rw [hshape, Nat.add_mul_mod_self_right]

theorem getDom_setDom_self (st i d : Nat) (hd : d < FIELD) :
    getDom (setDom st i d) i = d := by
  unfold setDom
  rw [getDom_add_mul_high _ _ i (i + 1) (Nat.lt_succ_self i)]
  unfold getDom
  have harg : st % FIELD ^ i + d * FIELD ^ i
      = st % FIELD ^ i + FIELD ^ i * d := by ring
  rw [harg, Nat.add_mul_div_left _ _ (pow_FIELD_pos i),
    Nat.div_eq_of_lt (Nat.mod_lt _ (pow_FIELD_pos i)), Nat.zero_add,
    Nat.mod_eq_of_lt hd]

theorem getDom_setDom_lt (st i d j : Nat) (hj : j < i) :
    getDom (setDom st i d) j = getDom st j := by
  unfold setDom
  rw [getDom_add_mul_high _ _ j (i + 1) (by omega),
    getDom_add_mul_high _ _ j i hj]
  conv_rhs => rw [← Nat.mod_add_div' st (FIELD ^ i)]
  rw [getDom_add_mul_high _ _ j i hj]

theorem setDom_div_high (st i d : Nat) (hd : d < FIELD) :
    setDom st i d / FIELD ^ (i + 1) = st / FIELD ^ (i + 1) := by
  unfold setDom
  have hlow : st % FIELD ^ i + d * FIELD ^ i < FIELD ^ (i + 1) := by
    have h1 : st % FIELD ^ i < FIELD ^ i := Nat.mod_lt _ (pow_FIELD_pos i)
    have h2 : d * FIELD ^ i ≤ (FIELD - 1) * FIELD ^ i :=
      Nat.mul_le_mul_right _ (by omega)
    have h3 : FIELD ^ i + (FIELD - 1) * FIELD ^ i = FIELD ^ (i + 1) := by
      have h4 : FIELD ^ i + (FIELD - 1) * FIELD ^ i
          = (1 + (FIELD - 1)) * FIELD ^ i := by ring
      rw [h4, show (1 + (FIELD - 1)) = FIELD from by decide, Nat.pow_succ]
      ring
    omega
  have harg : st % FIELD ^ i + d * FIELD ^ i
        + st / FIELD ^ (i + 1) * FIELD ^ (i + 1)
      = st % FIELD ^ i + d * FIELD ^ i
        + FIELD ^ (i + 1) * (st / FIELD ^ (i + 1)) := by ring
  rw [harg, Nat.add_mul_div_left _ _ (pow_FIELD_pos (i + 1)),
    Nat.div_eq_of_lt hlow, Nat.zero_add]

theorem getDom_setDom_gt (st i d j : Nat) (hd : d < FIELD) (hj : i < j) :
    getDom (setDom st i d) j = getDom st j := by
  unfold getDom
  have hsplit : FIELD ^ j = FIELD ^ (i + 1) * FIELD ^ (j - i - 1) := by
    rw [← Nat.pow_add]
    congr 1
    omega
  rw [hsplit, ← Nat.div_div_eq_div_mul, ← Nat.div_div_eq_div_mul,
    setDom_div_high st i d hd]

theorem getDom_setDom_ne (st i d j : Nat) (hd : d < FIELD) (hj : j ≠ i) :
    getDom (setDom st i d) j = getDom st j := by
  rcases Nat.lt_or_ge j i with h | h
  · exact getDom_setDom_lt st i d j h
  · exact getDom_setDom_gt st i d j hd (by omega)

/-! ### Mask lemmas -/

/-- One candidate mask is contained in another. -/
def SubMask (a b : Nat) : Prop := ∀ k, a.testBit k = true → b.testBit k = true

/-- Every cell of one state has a candidate mask contained in the other's:
domains only ever shrink during propagation and search. -/
def SubState (s t : DomState) : Prop := ∀ j, SubMask (getDom s j) (getDom t j)

theorem subMask_refl (a : Nat) : SubMask a a := fun _ h => h

theorem subState_refl (s : DomState) : SubState s s := fun _ => subMask_refl _

theorem subState_trans {a b c : DomState} (h1 : SubState a b) (h2 : SubState b c) :
    SubState a c := fun j k hk => h2 j k (h1 j k hk)

theorem subState_set {t : DomState} {i d : Nat} (hd : d < FIELD)
    (h : SubMask d (getDom t i)) : SubState (setDom t i d) t := by
  intro j
  rcases eq_or_ne j i with rfl | hne
  · rw [getDom_setDom_self t j d hd]
    exact h
  · rw [getDom_setDom_ne t i d j hd hne]
    exact subMask_refl _

theorem testBit_eraseMask (v d k : Nat) :
    (eraseMask v d).testBit k = if k = v - 1 then false else d.testBit k := by
  unfold eraseMask memMask
  by_cases hm : d.testBit (v - 1) = true
  · rw [if_pos hm, Nat.testBit_xor]
    by_cases hk : k = v - 1
    · subst hk
      rw [if_pos rfl, hm, Nat.testBit_two_pow_self]
      rfl
    · rw [if_neg hk, Nat.testBit_two_pow_of_ne (fun h => hk h.symm)]
      simp
  · rw [if_neg hm]
    by_cases hk : k = v - 1
    · subst hk
      rw [if_pos rfl]
      simpa using hm
    · rw [if_neg hk]

theorem subMask_erase (v d : Nat) : SubMask (eraseMask v d) d := by
  intro k h
  rw [testBit_eraseMask] at h
  split at h
  · exact absurd h (by simp)
  · exact h

theorem eraseMask_le (v d : Nat) : eraseMask v d ≤ d :=
  Nat.le_of_testBit (subMask_erase v d)

theorem eraseMask_lt_FIELD {v d : Nat} (hd : d < FIELD) : eraseMask v d < FIELD :=
  Nat.lt_of_le_of_lt (eraseMask_le v d) hd

theorem singleVal_some {d v : Nat} (h : singleVal d = some v) :
    d = 2 ^ (v - 1) ∧ 1 ≤ v ∧ v ≤ 16 := by
  unfold singleVal at h
  have hp := List.find?_some h
  have hm := List.mem_of_find?_eq_some h
  rw [List.mem_range'] at hm
  obtain ⟨t, ht, rfl⟩ := hm
  refine ⟨by simpa using hp, by omega, by omega⟩

theorem singleVal_pow {v : Nat} (h1 : 1 ≤ v) (h16 : v ≤ 16) :
    singleVal (2 ^ (v - 1)) = some v := by
  have hb : ∀ w, w < 17 → 1 ≤ w → singleVal (2 ^ (w - 1)) = some w := by decide
  exact hb v (by omega) h1

theorem cellValue_pow {v : Nat} (h1 : 1 ≤ v) (h16 : v ≤ 16) :
    cellValue (2 ^ (v - 1)) = v := by
  unfold cellValue
  rw [singleVal_pow h1 h16]
  rfl

theorem fixed_cases {d : Nat} (h : isFixed d = true) :
    ∃ w, singleVal d = some w ∧ d = 2 ^ (w - 1) ∧ 1 ≤ w ∧ w ≤ 16 ∧
      cellValue d = w := by
  obtain ⟨w, hw⟩ := Option.isSome_iff_exists.mp h
  obtain ⟨hd, h1, h16⟩ := singleVal_some hw
  refine ⟨w, hw, hd, h1, h16, ?_⟩
  unfold cellValue
  rw [hw]
  rfl

theorem memMask_pow {v w : Nat} (h1 : 1 ≤ v) (hw : 1 ≤ w)
    (h : memMask v (2 ^ (w - 1)) = true) : v = w := by
  unfold memMask at h
  rw [Nat.testBit_two_pow] at h
  have h2 : w - 1 = v - 1 := by simpa using h
  omega

theorem memMask_full {v : Nat} (h : memMask v fullMask = true) : v ≤ 9 := by
  unfold memMask fullMask at h
  have h9 : PUZZLE_SIZE = 9 := rfl
  rw [h9, Nat.testBit_two_pow_sub_one] at h
  have h2 : v - 1 < 9 := by simpa using h
  omega

theorem subMask_single {v d : Nat} (hm : memMask v d = true) :
    SubMask (2 ^ (v - 1)) d := by
  intro k hk
  rw [Nat.testBit_two_pow] at hk
  have h2 : v - 1 = k := by simpa using hk
  rw [← h2]
  exact hm

theorem pow_sub_one_lt_FIELD {v : Nat} (h16 : v ≤ 16) : 2 ^ (v - 1) < FIELD := by
  have h1 : 2 ^ (v - 1) ≤ 2 ^ 15 := Nat.pow_le_pow_right (by decide) (by omega)
  have h2 : (2 : Nat) ^ 15 < FIELD := by decide
  omega

theorem findSome?_eq_some_exists {α β : Type} {f : α → Option β} :
    ∀ {l : List α} {b : β}, l.findSome? f = some b → ∃ a, a ∈ l ∧ f a = some b := by
  intro l
  induction l with
  | nil => intro b h; simp [List.findSome?_nil] at h
  | cons a as ih =>
    intro b h
    rw [List.findSome?_cons] at h
    cases hfa : f a with
    | some c =>
      rw [hfa] at h
      exact ⟨a, List.mem_cons_self a as, by rw [hfa]; exact h⟩
    | none =>
      rw [hfa] at h
      obtain ⟨x, hx, hfx⟩ := ih h
      exact ⟨x, List.mem_cons_of_mem a hx, hfx⟩

/-! ### Domains only shrink during pruning and search -/

theorem prunePeers_subState {i v : Nat} :
    ∀ (js : List Nat) (st : DomState) (acc : List (Nat × Nat)) (st2 : DomState)
      (acc2 : List (Nat × Nat)),
      prunePeers i v js st acc = some (st2, acc2) → SubState st2 st := by
  intro js
  induction js with
  | nil =>
    intro st acc st2 acc2 h
    simp only [prunePeers, Option.some.injEq, Prod.mk.injEq] at h
    rw [← h.1]
    exact subState_refl st
  | cons j js ih =>
    intro st acc st2 acc2 h
    simp only [prunePeers] at h
    split at h
    · exact ih st acc st2 acc2 h
    · split at h
      · split at h
        · exact absurd h (by simp)
        · split at h
          · refine subState_trans (ih _ _ _ _ h) (subState_set ?_ ?_)
            · exact eraseMask_lt_FIELD (getDom_lt st j)
            · exact subMask_erase v _
          · refine subState_trans (ih _ _ _ _ h) (subState_set ?_ ?_)
            · exact eraseMask_lt_FIELD (getDom_lt st j)
            · exact subMask_erase v _
      · exact ih st acc st2 acc2 h

theorem pruneGroups_subState {i v : Nat} :
    ∀ (gs : List (List Nat)) (st : DomState) (acc : List (Nat × Nat))
      (st2 : DomState) (acc2 : List (Nat × Nat)),
      pruneGroups i v gs st acc = some (st2, acc2) → SubState st2 st := by
  intro gs
  induction gs with
  | nil =>
    intro st acc st2 acc2 h
    simp only [pruneGroups, Option.some.injEq, Prod.mk.injEq] at h
    rw [← h.1]
    exact subState_refl st
  | cons g gs ih =>
    intro st acc st2 acc2 h
    simp only [pruneGroups] at h
    split at h
    · cases hpp : prunePeers i v g st acc with
      | none => rw [hpp] at h; exact absurd h (by simp)
      | some r =>
        obtain ⟨stm, accm⟩ := r
        rw [hpp] at h
        exact subState_trans (ih stm accm st2 acc2 h)
          (prunePeers_subState g st acc stm accm hpp)
    · exact ih st acc st2 acc2 h

theorem propagate_subState (groups : List (List Nat)) :
    ∀ (fuel : Nat) (queue : List (Nat × Nat)) (st st2 : DomState),
      propagate groups fuel queue st = some st2 → SubState st2 st := by
  intro fuel
  induction fuel with
  | zero => intro queue st st2 h; simp [propagate] at h
  | succ fuel ih =>
    intro queue st st2 h
    cases queue with
    | nil =>
      simp only [propagate, Option.some.injEq] at h
      rw [← h]
      exact subState_refl st
    | cons p queue =>
      obtain ⟨i, v⟩ := p
      simp only [propagate] at h
      cases hpg : pruneGroups i v groups st [] with
      | none => rw [hpg] at h; exact absurd h (by simp)
      | some r =>
        obtain ⟨stm, newly⟩ := r
        rw [hpg] at h
        exact subState_trans (ih _ _ _ h)
          (pruneGroups_subState groups st [] stm newly hpg)

theorem search_sound (groups : List (List Nat)) (n : Nat) :
    ∀ (fuel : Nat) (st st2 : DomState), search groups n fuel st = some st2 →
      SubState st2 st ∧ firstUnbound st2 n 0 = none ∧
        allConsistent groups st2 = true := by
  intro fuel
  induction fuel with
  | zero => intro st st2 h; simp [search] at h
  | succ fuel ih =>
    intro st st2 h
    simp only [search] at h
    cases hfu : firstUnbound st n 0 with
    | none =>
      rw [hfu] at h
      by_cases hc : allConsistent groups st = true
      · rw [if_pos hc] at h
        obtain rfl : st = st2 := Option.some.inj h
        exact ⟨subState_refl st, hfu, hc⟩
      · rw [if_neg hc] at h
        exact absurd h (by simp)
    | some i =>
      rw [hfu] at h
      obtain ⟨v, hv, hinner⟩ := findSome?_eq_some_exists h
      have hvm := List.mem_filter.mp hv
      have hvb : v ∈ List.range' 1 16 := hvm.1
      rw [List.mem_range'] at hvb
      obtain ⟨t, ht, rfl⟩ := hvb
      cases hp : propagate groups (n + 2) [(i, 1 + 1 * t)]
          (setDom st i (2 ^ (1 + 1 * t - 1))) with
      | none =>
        rw [hp] at hinner
        exact absurd hinner (by simp)
      | some stm =>
        rw [hp] at hinner
        obtain ⟨hsub, hfu2, hcons⟩ := ih stm st2 hinner
        have h1 : SubState stm (setDom st i (2 ^ (1 + 1 * t - 1))) :=
          propagate_subState groups _ _ _ _ hp
        have h2 : SubState (setDom st i (2 ^ (1 + 1 * t - 1))) st :=
          subState_set (pow_sub_one_lt_FIELD (by omega)) (subMask_single hvm.2)
        exact ⟨subState_trans hsub (subState_trans h1 h2), hfu2, hcons⟩

/-! ### Fully bound states -/

theorem firstUnbound_none_fixed (st : DomState) :
    ∀ (count i : Nat), firstUnbound st count i = none →
      ∀ k, k < count → isFixed (getDom st (i + k)) = true := by
  intro count
  induction count with
  | zero => intro i _ k hk; omega
  | succ c ih =>
    intro i h k hk
    simp only [firstUnbound] at h
    by_cases hf : isFixed (getDom st i) = true
    · rw [if_pos hf] at h
      cases k with
      | zero => simpa using hf
      | succ k =>
        have heq : i + (k + 1) = (i + 1) + k := by omega
        rw [heq]
        exact ih (i + 1) h k (by omega)
    · rw [if_neg hf] at h
      exact absurd h (by simp)

theorem fixed_firstUnbound (st : DomState) :
    ∀ (count i : Nat), (∀ k, k < count → isFixed (getDom st (i + k)) = true) →
      firstUnbound st count i = none := by
  intro count
  induction count with
  | zero => intro i _; rfl
  | succ c ih =>
    intro i hall
    have h0 : isFixed (getDom st i) = true := by
      have := hall 0 (by omega)
      simpa using this
    simp only [firstUnbound, if_pos h0]
    refine ih (i + 1) ?_
    intro k hk
    have heq : (i + 1) + k = i + (k + 1) := by omega
    rw [heq]
    exact hall (k + 1) (by omega)

theorem allDistinct_nodup : ∀ {l : List Nat}, allDistinct l = true → l.Nodup := by
  intro l
  induction l with
  | nil => intro _; exact List.nodup_nil
  | cons x xs ih =>
    intro h
    simp only [allDistinct, Bool.and_eq_true, Bool.not_eq_true'] at h
    exact List.nodup_cons.mpr ⟨by simpa using h.1, ih h.2⟩

theorem nodup_allDistinct : ∀ {l : List Nat}, l.Nodup → allDistinct l = true := by
  intro l
  induction l with
  | nil => intro _; rfl
  | cons x xs ih =>
    intro h
    obtain ⟨hx, hxs⟩ := List.nodup_cons.mp h
    simp only [allDistinct, Bool.and_eq_true, Bool.not_eq_true']
    exact ⟨by simpa using hx, ih hxs⟩

theorem filterMap_fixed_eq_map {st : DomState} :
    ∀ {g : List Nat}, (∀ j ∈ g, isFixed (getDom st j) = true) →
      g.filterMap (fun j => singleVal (getDom st j))
        = g.map (fun j => cellValue (getDom st j)) := by
  intro g
  induction g with
  | nil => intro _; rfl
  | cons j g ihg =>
    intro hb
    obtain ⟨w, hw, -, -, -, hval⟩ := fixed_cases (hb j (List.mem_cons_self j g))
    rw [List.filterMap_cons, List.map_cons, hval]
    simp only [hw]
    rw [ihg (fun k hk => hb k (List.mem_cons_of_mem j hk))]

theorem isConsistent_nodup_map {st : DomState} {g : List Nat}
    (hfix : ∀ j ∈ g, isFixed (getDom st j) = true)
    (hc : isConsistent st g = true) :
    (g.map (fun j => cellValue (getDom st j))).Nodup := by
  unfold isConsistent at hc
  rw [filterMap_fixed_eq_map hfix] at hc
  exact allDistinct_nodup hc

/-! ### The initial state -/

theorem maskOfDigit_lt {x : Nat} (hx : x ≤ 16) : maskOfDigit x < FIELD := by
  have h : ∀ y, y < 17 → maskOfDigit y < FIELD := by decide
  exact h x (by omega)

theorem csv_cons (a : Nat) (t : List Nat) :
    create_solver_vars (a :: t) = create_solver_vars t * FIELD + maskOfDigit a := rfl

theorem csv_getDom (g : List Nat) (hd16 : ∀ x ∈ g, x ≤ 16) :
    ∀ j, j < g.length → getDom (create_solver_vars g) j = maskOfDigit (g.getD j 0) := by
  induction g with
  | nil => intro j hj; simp at hj
  | cons a t ih =>
    intro j hj
    cases j with
    | zero =>
      rw [csv_cons]
      unfold getDom
      rw [Nat.pow_zero, Nat.div_one]
      have harg : create_solver_vars t * FIELD + maskOfDigit a
          = FIELD * create_solver_vars t + maskOfDigit a := by ring
      rw [harg, Nat.mul_add_mod,
        Nat.mod_eq_of_lt (maskOfDigit_lt (hd16 a (List.mem_cons_self a t)))]
      rfl
    | succ j =>
      rw [csv_cons]
      unfold getDom
      have hsplit : FIELD ^ (j + 1) = FIELD * FIELD ^ j := by
        rw [Nat.pow_succ]
        ring
      rw [hsplit, ← Nat.div_div_eq_div_mul]
      have hdiv : (create_solver_vars t * FIELD + maskOfDigit a) / FIELD
          = create_solver_vars t := by
        have harg : create_solver_vars t * FIELD + maskOfDigit a
            = maskOfDigit a + FIELD * create_solver_vars t := by ring
        rw [harg, Nat.add_mul_div_left _ _ (by decide : 0 < FIELD),
          Nat.div_eq_of_lt (maskOfDigit_lt (hd16 a (List.mem_cons_self a t))),
          Nat.zero_add]
      rw [hdiv, List.getD_cons_succ]
      exact ih (fun x hx => hd16 x (List.mem_cons_of_mem a hx)) j (by simpa using hj)

theorem readValues_length (n st : Nat) : (readValues n st).length = n := by
  unfold readValues
  simp

theorem readValues_getD (n st j : Nat) (hj : j < n) :
    (readValues n st).getD j 0 = cellValue (getDom st j) := by
  unfold readValues
  have hlen : j < ((List.range n).map (fun i => cellValue (getDom st i))).length := by
    simpa using hj
  rw [List.getD_eq_getElem _ 0 hlen, List.getElem_map, List.getElem_range]

theorem groups81_cells_lt : ∀ G ∈ groups81, ∀ j ∈ G, j < 81 := by decide

theorem groups81_cells_len : ∀ G ∈ groups81, G.length = 9 := by decide

theorem create_constraints_81 : create_constraints 81 = some groups81 := rfl

/-! ### Soundness of `solve` -/

/-- Any normal return of `solve` on an 81-cell puzzle is either the input
itself or the read-out of a fully bound, consistent final state whose
domains all shrank from the initial ones. -/
theorem solve_some_cases {g out : List Nat} (hlen : g.length = 81)
    (h : solve g = some out) :
    out = g ∨
      ∃ st : DomState, SubState st (create_solver_vars g) ∧
        (∀ j, j < 81 → isFixed (getDom st j) = true) ∧
        allConsistent groups81 st = true ∧ out = readValues 81 st := by
  unfold solve at h
  rw [hlen, create_constraints_81] at h
  dsimp only at h
  have h2 := Option.some.inj h
  unfold find_solution at h2
  cases hp : propagate groups81 (2 * 81 + 2) (boundQueue 81 (create_solver_vars g))
      (create_solver_vars g) with
  | none =>
    simp only [hp, List.isEmpty_nil, if_true] at h2
    exact Or.inl h2.symm
  | some st0 =>
    simp only [hp] at h2
    cases hs : search groups81 81 (81 + 1) st0 with
    | none =>
      simp only [hs, List.isEmpty_nil, if_true] at h2
      exact Or.inl h2.symm
    | some st =>
      simp only [hs] at h2
      by_cases he : (readValues 81 st).isEmpty
      · rw [if_pos he] at h2
        exact Or.inl h2.symm
      · rw [if_neg he] at h2
        obtain ⟨hsub, hfu, hcons⟩ := search_sound groups81 81 _ _ _ hs
        have hsub0 := propagate_subState groups81 _ _ _ _ hp
        refine Or.inr ⟨st, subState_trans hsub hsub0, ?_, hcons, h2.symm⟩
        intro j hj
        have := firstUnbound_none_fixed st 81 0 hfu j hj
        simpa using this

/-- The facts the claims need about a solved (input-different) output: its
length, that every cell's digit lies in the cell's initial candidate mask
(and is some value `1..16`), and pairwise distinctness over every
constraint group. -/
theorem solve_sound {g out : List Nat} (hlen : g.length = 81)
    (h : solve g = some out) (hne : out ≠ g) :
    out.length = 81 ∧
      (∀ j, j < 81 → memMask (cellVal out j) (getDom (create_solver_vars g) j) = true ∧
        1 ≤ cellVal out j ∧ cellVal out j ≤ 16) ∧
      (∀ G ∈ groups81, (G.map (cellVal out)).Nodup) := by
  rcases solve_some_cases hlen h with rfl | ⟨st, hsub, hfix, hcons, rfl⟩
  · exact absurd rfl hne
  · refine ⟨readValues_length 81 st, ?_, ?_⟩
    · intro j hj
      obtain ⟨w, hw, hdj, h1, h16, hval⟩ := fixed_cases (hfix j hj)
      have hcv : cellVal (readValues 81 st) j = w := by
        unfold cellVal
        rw [readValues_getD 81 st j hj, hval]
      rw [hcv]
      have hbit : (getDom st j).testBit (w - 1) = true := by
        rw [hdj]
        exact Nat.testBit_two_pow_self
      exact ⟨hsub j (w - 1) hbit, h1, h16⟩
    · intro G hG
      have hfixG : ∀ j ∈ G, isFixed (getDom st j) = true :=
        fun j hj => hfix j (groups81_cells_lt G hG j hj)
      have hcG : isConsistent st G = true := by
        have hall := List.all_eq_true.mp hcons
        simpa using hall G hG
      have hnd := isConsistent_nodup_map hfixG hcG
      have hmapeq : G.map (fun j => cellValue (getDom st j))
          = G.map (cellVal (readValues 81 st)) := by
        refine List.map_congr_left ?_
        intro j hj
        unfold cellVal
        rw [readValues_getD 81 st j (groups81_cells_lt G hG j hj)]
      rw [← hmapeq]
      exact hnd

theorem count_eq_one_of_nodup_nine {l : List Nat} (hnd : l.Nodup) (hlen : l.length = 9)
    (hmem : ∀ x ∈ l, 1 ≤ x ∧ x ≤ 9) {v : Nat} (h1 : 1 ≤ v) (h9 : v ≤ 9) :
    l.count v = 1 := by
  have hsubset : l ⊆ List.range' 1 9 := by
    intro x hx
    have hb := hmem x hx
    rw [List.mem_range']
    exact ⟨x - 1, by omega, by omega⟩
  have hsp : l.Subperm (List.range' 1 9) := List.subperm_of_subset hnd hsubset
  have hperm : l.Perm (List.range' 1 9) := hsp.perm_of_length_le (by simp [hlen])
  refine List.count_eq_one_of_mem hnd (hperm.mem_iff.mpr ?_)
  rw [List.mem_range']
  exact ⟨v - 1, by omega, by omega⟩

theorem rows_match : ∀ k < 9, ∃ G ∈ groups81, rowCells k = G := by decide

theorem cols_match : ∀ k < 9, ∃ G ∈ groups81, colCells k = G := by decide

theorem blocks_match : ∀ k < 9, ∃ G ∈ groups81, (blockCells k).Perm G := by decide

theorem solve_preserves_givens {g out : List Nat} (hlen : g.length = 81)
    (hdig : ∀ x ∈ g, x ≤ 9) (h : solve g = some out) :
    ∀ i, i < 81 → cellVal g i ≠ 0 → cellVal out i = cellVal g i := by
  intro i hi hnz
  by_cases hne : out = g
  · rw [hne]
  · obtain ⟨-, hmem, -⟩ := solve_sound hlen h hne
    obtain ⟨hm, h1, h16⟩ := hmem i hi
    have hig : i < g.length := by rw [hlen]; exact hi
    rw [csv_getDom g (fun x hx => by have := hdig x hx; omega) i hig] at hm
    have hnz2 : g.getD i 0 ≠ 0 := hnz
    rw [maskOfDigit, if_pos hnz2] at hm
    exact memMask_pow h1 (by omega) hm

theorem solve_digits {g out : List Nat} (hlen : g.length = 81)
    (hdig : ∀ x ∈ g, x ≤ 9) (h : solve g = some out) (hne : out ≠ g) :
    ∀ j, j < 81 → 1 ≤ cellVal out j ∧ cellVal out j ≤ 9 := by
  obtain ⟨-, hmem, -⟩ := solve_sound hlen h hne
  intro j hj
  obtain ⟨hm, h1, h16⟩ := hmem j hj
  have hjg : j < g.length := by rw [hlen]; exact hj
  rw [csv_getDom g (fun x hx => by have := hdig x hx; omega) j hjg] at hm
  by_cases hz : g.getD j 0 ≠ 0
  · rw [maskOfDigit, if_pos hz] at hm
    have heq := memMask_pow h1 (by omega) hm
    have hgj : g.getD j 0 ∈ g := by
      rw [List.getD_eq_getElem g 0 hjg]
      exact List.getElem_mem hjg
    have hle := hdig _ hgj
    omega
  · rw [maskOfDigit, if_neg hz] at hm
    exact ⟨h1, memMask_full hm⟩

theorem solve_group_counts {g out : List Nat} (hlen : g.length = 81)
    (hdig : ∀ x ∈ g, x ≤ 9) (h : solve g = some out) (hne : out ≠ g) :
    ∀ G ∈ groups81, ∀ v, 1 ≤ v → v ≤ 9 → (G.map (cellVal out)).count v = 1 := by
  obtain ⟨-, -, hnd⟩ := solve_sound hlen h hne
  intro G hG v h1 h9
  refine count_eq_one_of_nodup_nine (hnd G hG) ?_ ?_ h1 h9
  · simp [groups81_cells_len G hG]
  · intro x hx
    obtain ⟨j, hj, rfl⟩ := List.mem_map.mp hx
    exact solve_digits hlen hdig h hne j (groups81_cells_lt G hG j hj)

theorem solve_unique {g out : List Nat} (hlen : g.length = 81)
    (hdig : ∀ x ∈ g, x ≤ 9) (h : solve g = some out) (hne : out ≠ g) :
    UniqueInGroups out := by
  intro k hk v hv
  have hb : 1 ≤ v ∧ v ≤ 9 := by
    rw [List.mem_range'] at hv
    obtain ⟨t, ht, rfl⟩ := hv
    omega
  have hc := solve_group_counts hlen hdig h hne
  refine ⟨?_, ?_, ?_⟩
  · obtain ⟨G, hG, heq⟩ := rows_match k hk
    rw [heq]
    exact hc G hG v hb.1 hb.2
  · obtain ⟨G, hG, heq⟩ := cols_match k hk
    rw [heq]
    exact hc G hG v hb.1 hb.2
  · obtain ⟨G, hG, hperm⟩ := blocks_match k hk
    rw [List.Perm.count_eq (hperm.map (cellVal out))]
    exact hc G hG v hb.1 hb.2

theorem solve_out_length {g out : List Nat} (hlen : g.length = 81)
    (h : solve g = some out) : out.length = 81 := by
  rcases solve_some_cases hlen h with rfl | ⟨st, -, -, -, rfl⟩
  · exact hlen
  · exact readValues_length 81 st

theorem solve_total {g : List Nat} (hlen : g.length = 81) :
    ∃ out, solve g = some out := by
  have hc : create_constraints g.length = some groups81 := by rw [hlen]; rfl
  unfold solve
  rw [hc]
  exact ⟨_, rfl⟩

/-! ### An already-solved input passes through unchanged -/

theorem groups81_match :
    ∀ G ∈ groups81, ∃ k, k < 9 ∧
      (rowCells k = G ∨ colCells k = G ∨ (blockCells k).Perm G) := by decide

theorem unique_nodup {out : List Nat}
    (hdig : ∀ i, i < 81 → 1 ≤ cellVal out i ∧ cellVal out i ≤ 9)
    (hval : UniqueInGroups out) :
    ∀ G ∈ groups81, (G.map (cellVal out)).Nodup := by
  intro G hG
  obtain ⟨k, hk, hcase⟩ := groups81_match G hG
  have hcnt : ∀ v, 1 ≤ v → v ≤ 9 → (G.map (cellVal out)).count v = 1 := by
    intro v h1 h9
    have hv : v ∈ List.range' 1 9 := by
      rw [List.mem_range']
      exact ⟨v - 1, by omega, by omega⟩
    obtain ⟨c1, c2, c3⟩ := hval k hk v hv
    rcases hcase with hr | hc | hb
    · rw [← hr]; exact c1
    · rw [← hc]; exact c2
    · rw [← List.Perm.count_eq (hb.map (cellVal out))]; exact c3
  rw [List.nodup_iff_count_le_one]
  intro a
  by_cases ha : 1 ≤ a ∧ a ≤ 9
  · rw [hcnt a ha.1 ha.2]
  · have hnm : a ∉ G.map (cellVal out) := by
      intro hmem
      obtain ⟨j, hj, rfl⟩ := List.mem_map.mp hmem
      exact ha (hdig j (groups81_cells_lt G hG j hj))
    simp [List.count_eq_zero.mpr hnm]

theorem prunePeers_noop {i v : Nat} {st : DomState} :
    ∀ (js : List Nat) (acc : List (Nat × Nat)),
      (∀ j ∈ js, j ≠ i → memMask v (getDom st j) = false) →
      prunePeers i v js st acc = some (st, acc) := by
  intro js
  induction js with
  | nil => intro acc _; rfl
  | cons j js ih =>
    intro acc h
    simp only [prunePeers]
    by_cases hji : j = i
    · rw [if_pos hji]
      exact ih acc (fun k hk => h k (List.mem_cons_of_mem j hk))
    · rw [if_neg hji]
      have hv : ¬(memMask v (getDom st j) = true) := by
        simp [h j (List.mem_cons_self j js) hji]
      rw [if_neg hv]
      exact ih acc (fun k hk => h k (List.mem_cons_of_mem j hk))

theorem pruneGroups_noop {i v : Nat} {st : DomState} :
    ∀ (gs : List (List Nat)) (acc : List (Nat × Nat)),
      (∀ g ∈ gs, i ∈ g → ∀ j ∈ g, j ≠ i → memMask v (getDom st j) = false) →
      pruneGroups i v gs st acc = some (st, acc) := by
  intro gs
  induction gs with
  | nil => intro acc _; rfl
  | cons g gs ih =>
    intro acc h
    simp only [pruneGroups]
    by_cases hig : i ∈ g
    · rw [if_pos hig, prunePeers_noop g acc (h g (List.mem_cons_self g gs) hig)]
      exact ih acc (fun k hk => h k (List.mem_cons_of_mem g hk))
    · rw [if_neg hig]
      exact ih acc (fun k hk => h k (List.mem_cons_of_mem g hk))

theorem propagate_noop (groups : List (List Nat)) {st : DomState} :
    ∀ (fuel : Nat) (queue : List (Nat × Nat)), queue.length < fuel →
      (∀ p ∈ queue, ∀ g ∈ groups, p.1 ∈ g → ∀ j ∈ g, j ≠ p.1 →
        memMask p.2 (getDom st j) = false) →
      propagate groups fuel queue st = some st := by
  intro fuel
  induction fuel with
  | zero => intro queue h _; exact absurd h (by omega)
  | succ fuel ih =>
    intro queue hflen h
    cases queue with
    | nil => rfl
    | cons p queue =>
      obtain ⟨i, v⟩ := p
      simp only [propagate]
      rw [pruneGroups_noop groups [] (h (i, v) (List.mem_cons_self _ _))]
      show propagate groups fuel (queue ++ []) st = some st
      rw [List.append_nil]
      refine ih queue (by simpa using Nat.lt_of_succ_lt_succ hflen) ?_
      exact fun q hq => h q (List.mem_cons_of_mem _ hq)

theorem boundQueue_mem {n st i v : Nat} (h : (i, v) ∈ boundQueue n st) :
    singleVal (getDom st i) = some v ∧ i < n := by
  unfold boundQueue at h
  obtain ⟨a, ha, hm⟩ := List.mem_filterMap.mp h
  rw [Option.map_eq_some'] at hm
  obtain ⟨w, hw, heq⟩ := hm
  cases heq
  exact ⟨hw, List.mem_range.mp ha⟩

theorem boundQueue_length_le (n st : Nat) : (boundQueue n st).length ≤ n := by
  unfold boundQueue
  calc ((List.range n).filterMap _).length ≤ (List.range n).length :=
        List.length_filterMap_le _ _
    _ = n := List.length_range n

theorem search_fixed (groups : List (List Nat)) (n : Nat) {st : DomState}
    (hfix : ∀ j, j < n → isFixed (getDom st j) = true)
    (hcons : allConsistent groups st = true)
    (fuel : Nat) (hf : 0 < fuel) : search groups n fuel st = some st := by
  cases fuel with
  | zero => exact absurd hf (by omega)
  | succ fuel =>
    simp only [search]
    rw [fixed_firstUnbound st n 0 (fun k hk => by simpa using hfix k hk)]
    rw [if_pos hcons]

theorem digits_nonzero {g : List Nat} (hlen : g.length = 81)
    (hdig : ∀ i, i < 81 → 1 ≤ cellVal g i ∧ cellVal g i ≤ 9) :
    ∀ x ∈ g, x ≠ 0 ∧ x ≤ 9 := by
  intro x hx
  obtain ⟨i, hi, rfl⟩ := List.mem_iff_getElem.mp hx
  have h := hdig i (by rw [← hlen]; exact hi)
  rw [cellVal, List.getD_eq_getElem g 0 hi] at h
  omega

theorem csv_fixed {g : List Nat} (hnz : ∀ x ∈ g, x ≠ 0 ∧ x ≤ 9) :
    ∀ j, j < g.length → isFixed (getDom (create_solver_vars g) j) = true := by
  intro j hj
  have hgj : g.getD j 0 ∈ g := by
    rw [List.getD_eq_getElem g 0 hj]
    exact List.getElem_mem hj
  obtain ⟨h0, h9⟩ := hnz _ hgj
  rw [csv_getDom g (fun x hx => by have := (hnz x hx).2; omega) j hj,
    maskOfDigit, if_pos h0]
  unfold isFixed
  rw [singleVal_pow (by omega) (by omega)]
  rfl

theorem csv_read {g : List Nat} (hlen : g.length = 81)
    (hnz : ∀ x ∈ g, x ≠ 0 ∧ x ≤ 9) :
    readValues 81 (create_solver_vars g) = g := by
  refine List.ext_getElem (by rw [readValues_length, hlen]) ?_
  intro j hj1 hj2
  have hj : j < 81 := by rw [readValues_length] at hj1; exact hj1
  have hjg : j < g.length := hj2
  have hgj : g.getD j 0 ∈ g := by
    rw [List.getD_eq_getElem g 0 hjg]
    exact List.getElem_mem hjg
  obtain ⟨h0, h9⟩ := hnz _ hgj
  have hget : (readValues 81 (create_solver_vars g)).getD j 0
      = cellValue (getDom (create_solver_vars g) j) := readValues_getD _ _ j hj
  rw [List.getD_eq_getElem _ 0 hj1] at hget
  rw [hget, csv_getDom g (fun x hx => by have := (hnz x hx).2; omega) j hjg,
    maskOfDigit, if_pos h0, cellValue_pow (by omega) (by omega),
    List.getD_eq_getElem g 0 hjg]

theorem csv_allConsistent {g : List Nat} (hlen : g.length = 81)
    (hnz : ∀ x ∈ g, x ≠ 0 ∧ x ≤ 9)
    (hnd : ∀ G ∈ groups81, (G.map (cellVal g)).Nodup) :
    allConsistent groups81 (create_solver_vars g) = true := by
  refine List.all_eq_true.mpr ?_
  intro G hG
  have hfixG : ∀ j ∈ G, isFixed (getDom (create_solver_vars g) j) = true := by
    intro j hj
    exact csv_fixed hnz j (by rw [hlen]; exact groups81_cells_lt G hG j hj)
  unfold isConsistent
  rw [filterMap_fixed_eq_map hfixG]
  have hmapeq : G.map (fun j => cellValue (getDom (create_solver_vars g) j))
      = G.map (cellVal g) := by
    refine List.map_congr_left ?_
    intro j hj
    have hjg : j < g.length := by rw [hlen]; exact groups81_cells_lt G hG j hj
    have hgj : g.getD j 0 ∈ g := by
      rw [List.getD_eq_getElem g 0 hjg]
      exact List.getElem_mem hjg
    obtain ⟨h0, h9⟩ := hnz _ hgj
    rw [csv_getDom g (fun x hx => by have := (hnz x hx).2; omega) j hjg,
      maskOfDigit, if_pos h0, cellValue_pow (by omega) (by omega)]
    rfl
  rw [hmapeq]
  exact nodup_allDistinct (hnd G hG)

theorem solve_presolved {g : List Nat} (hlen : g.length = 81)
    (hdig : ∀ i, i < 81 → 1 ≤ cellVal g i ∧ cellVal g i ≤ 9)
    (hval : UniqueInGroups g) : solve g = some g := by
  have hnz := digits_nonzero hlen hdig
  have hnd := unique_nodup hdig hval
  have hcons := csv_allConsistent hlen hnz hnd
  have hfix : ∀ j, j < 81 → isFixed (getDom (create_solver_vars g) j) = true :=
    fun j hj => csv_fixed hnz j (by rw [hlen]; exact hj)
  have hprop : propagate groups81 (2 * 81 + 2) (boundQueue 81 (create_solver_vars g))
      (create_solver_vars g) = some (create_solver_vars g) := by
    refine propagate_noop groups81 _ _ ?_ ?_
    · have := boundQueue_length_le 81 (create_solver_vars g)
      omega
    · rintro ⟨i, v⟩ hq G hG hiG j hjG hji
      obtain ⟨hgi, hilt⟩ := boundQueue_mem hq
      have hig : i < g.length := by rw [hlen]; exact hilt
      have hjg : j < g.length := by
        rw [hlen]
        exact groups81_cells_lt G hG j hjG
      have hd16 : ∀ x ∈ g, x ≤ 16 := fun x hx => by have := (hnz x hx).2; omega
      have hgjm : g.getD j 0 ∈ g := by
        rw [List.getD_eq_getElem g 0 hjg]
        exact List.getElem_mem hjg
      have hgim : g.getD i 0 ∈ g := by
        rw [List.getD_eq_getElem g 0 hig]
        exact List.getElem_mem hig
      obtain ⟨hj0, hj9⟩ := hnz _ hgjm
      obtain ⟨hi0, hi9⟩ := hnz _ hgim
      rw [csv_getDom g hd16 i hig, maskOfDigit, if_pos hi0, singleVal_pow (by omega) (by omega)] at hgi
      have hvi : v = g.getD i 0 := (Option.some.inj hgi).symm
      rw [csv_getDom g hd16 j hjg, maskOfDigit, if_pos hj0]
      by_cases hvm : memMask v (2 ^ (g.getD j 0 - 1)) = true
      · exfalso
        have hvj : v = g.getD j 0 := memMask_pow (by omega) (by omega) hvm
        have hinj := List.inj_on_of_nodup_map (hnd G hG)
        refine hji (hinj hjG hiG ?_)
        show g.getD j 0 = g.getD i 0
        omega
      · simpa using hvm
  have hsearch := search_fixed groups81 81 hfix hcons (81 + 1) (by omega)
  have hfs : find_solution groups81 81 (create_solver_vars g) = g := by
    unfold find_solution
    simp only [hprop, hsearch]
    exact csv_read hlen hnz
  unfold solve
  rw [hlen, create_constraints_81]
  dsimp only
  rw [hfs]
  refine congrArg some ?_
  split
  · rfl
  · rfl

/-! ### The claims -/

/-- Claim C1: for every input sequence of 81 digits in 0..9 for which
`solve` returns a result different from the input (a solved output), every
row, every column, and every 3x3 block of the output contains each of the
values 1..9 exactly once. -/
theorem claim1_uniqueness {g out : List Nat} (hlen : g.length = 81)
    (hdig : ∀ x ∈ g, x ≤ 9) (hsolve : solve g = some out) (hne : out ≠ g) :
    UniqueInGroups out :=
  solve_unique hlen hdig hsolve hne

/-- Claim C2: for every input sequence of 81 digits in 0..9 on which
`solve` finds a result, every cell whose input digit is nonzero keeps
exactly that digit in the output. -/
theorem claim2_givens {g out : List Nat} (hlen : g.length = 81)
    (hdig : ∀ x ∈ g, x ≤ 9) (hsolve : solve g = some out) :
    ∀ i, i < 81 → cellVal g i ≠ 0 → cellVal out i = cellVal g i :=
  solve_preserves_givens hlen hdig hsolve

/-- Claim C4: an 81-digit input in 0..9 admitting no valid completion makes
`solve` return the original input sequence, without raising. -/
theorem claim4_unsolvable {g : List Nat} (hlen : g.length = 81)
    (hdig : ∀ x ∈ g, x ≤ 9) (hno : ¬ ∃ s, IsCompletion g s) :
    solve g = some g := by
  obtain ⟨out, hout⟩ := solve_total hlen
  by_cases hne : out = g
  · rw [hout, hne]
  · exfalso
    apply hno
    refine ⟨out, solve_out_length hlen hout, ?_, ?_, ?_⟩
    · exact fun i hi hnz => solve_preserves_givens hlen hdig hout i hi hnz
    · exact fun i hi => solve_digits hlen hdig hout hne i hi
    · exact solve_unique hlen hdig hout hne

/-- Witness for claim C4 at the spec's own example: cells 0 and 1 both `5`,
the rest unknown; no valid completion exists, and `solve` returns the
input. -/
theorem claim4_witness : solve doubleFive = some doubleFive :=
  claim4_unsolvable (by decide) (by decide) (by
    rintro ⟨s, hslen, hgiven, hsdig, hval⟩
    have h0 : cellVal s 0 = 5 := hgiven 0 (by decide) (by decide)
    have h1 : cellVal s 1 = 5 := hgiven 1 (by decide) (by decide)
    have hcount := (hval 0 (by decide) 5 (by decide)).1
    have hrow : rowCells 0 = [0, 1, 2, 3, 4, 5, 6, 7, 8] := rfl
    rw [hrow] at hcount
    simp only [List.map_cons, List.map_nil] at hcount
    rw [h0, h1] at hcount
    simp [List.count_cons] at hcount)

/-- Claim C6: `solve` is a deterministic function of its input — equal
inputs give identical results. -/
theorem claim6_determinism (g1 g2 : List Nat) (h : g1 = g2) :
    solve g1 = solve g2 := by rw [h]

/-- Witness for claim C6 at the all-zero board. -/
theorem claim6_witness :
    solve (List.replicate 81 0) = solve (List.replicate 81 0) :=
  claim6_determinism _ _ rfl

/-- Claim C8: an input with no zeros that is already a valid completed
sudoku is returned unchanged. -/
theorem claim8_presolved {g : List Nat} (hlen : g.length = 81)
    (hdig : ∀ i, i < 81 → 1 ≤ cellVal g i ∧ cellVal g i ≤ 9)
    (hval : UniqueInGroups g) : solve g = some g :=
  solve_presolved hlen hdig hval

/-- Witness for claim C8 at the classic puzzle's solution grid. -/
theorem claim8_witness : solve classicSolution = some classicSolution :=
  claim8_presolved (by decide) (by decide) (by unfold UniqueInGroups; decide)

/-- Claim C9: the constraint set for the 81-cell puzzle is exactly 27
all-different groups of 9 cells — the 9 rows first, then the 9 columns,
then the 9 blocks (each block group a permutation of a claim-level block,
and conversely) — and every cell lies in exactly 3 groups. -/
theorem claim9_constraint_groups :
    create_constraints 81 = some groups81 ∧
      groups81.length = 27 ∧
      (∀ G ∈ groups81, G.length = 9) ∧
      (∀ k < 9, groups81.getD k [] = rowCells k) ∧
      (∀ k < 9, groups81.getD (9 + k) [] = colCells k) ∧
      (∀ b < 9, ∃ k, k < 9 ∧ (groups81.getD (18 + k) []).Perm (blockCells b)) ∧
      (∀ k < 9, ∃ b, b < 9 ∧ (groups81.getD (18 + k) []).Perm (blockCells b)) ∧
      (∀ i < 81, groups81.countP (fun G => G.contains i) = 3) := by
  refine ⟨rfl, by decide, by decide, by decide, by decide, by decide, by decide, by decide⟩

/-! ### Concrete runs of the engine (shared by witnesses and the
end-to-end claims) -/

theorem nearSolved_solve : solve nearSolved = some classicSolution := by decide

theorem overNine_solve : solve overNineInput = some overNineInput := by decide

/-- Witness for claim C1 at a puzzle one blank away from the classic
solution. -/
theorem claim1_witness : UniqueInGroups classicSolution :=
  claim1_uniqueness (g := nearSolved) (by decide) (by decide) nearSolved_solve (by decide)

/-- Witness for claim C2: cell 0's given digit 5 survives into the
output. -/
theorem claim2_witness : cellVal classicSolution 0 = cellVal nearSolved 0 :=
  claim2_givens (by decide) (by decide) nearSolved_solve 0 (by decide) (by decide)

/-- Counterexample to claim C3 as stated: the spec's quoted input and
output are 78 digits long, not 81, and on the quoted input the engine
crashes with an indexing error while building the block constraints
(modelled as `none`) instead of returning the quoted output. -/
theorem claim3_counterexample :
    solve quotedInput = none ∧ quotedInput.length = 78 ∧ quotedOutput.length = 78 :=
  ⟨by decide, by decide, by decide⟩

/-- Claim C3 (amended): on the full classic 81-digit puzzle — the quoted
input extended by its missing last three digits `0,7,9` — `solve` returns
the full classic solution, the quoted output extended by `1,7,9`. -/
theorem claim3_classic :
    solve classicInput = some classicSolution ∧
      classicInput = quotedInput ++ [0, 7, 9] ∧
      classicSolution = quotedOutput ++ [1, 7, 9] :=
  ⟨by decide, by decide, by decide⟩

/-- Counterexample to claim C5: the code defines no `InvalidPuzzleError`
and validates nothing — an 81-digit input carrying the out-of-range digit
`10` is accepted, searched, and returned with the `10` still in cell 0. -/
theorem claim5_counterexample :
    solve overNineInput = some overNineInput ∧
      cellVal overNineInput 0 = 10 ∧ overNineInput.length = 81 :=
  ⟨overNine_solve, by decide, by decide⟩

/-- Claim C5 (amended): malformed input is not rejected with
`InvalidPuzzleError`: an out-of-range digit flows through the search into
the output; a length-80 input fails only with an indexing error during
block-constraint construction (modelled `none`); a length-82 input is
processed, its 82nd cell unconstrained and assigned the minimum value 1. -/
theorem claim5_amended :
    solve overNineInput = some overNineInput ∧
      solve input80 = none ∧
      solve input82 = some output82 :=
  ⟨overNine_solve, by decide, by decide⟩

/-- Claim C7: from the all-zero board the engine returns the specific full
valid solution fixed by the first-unbound / minimum-value ordering, whose
first row is 1..9 in order. -/
theorem claim7_empty_board :
    solve (List.replicate 81 0) = some emptyBoardSolution ∧
      UniqueInGroups emptyBoardSolution ∧
      emptyBoardSolution.take 9 = [1, 2, 3, 4, 5, 6, 7, 8, 9] :=
  ⟨by decide, by unfold UniqueInGroups; decide, by decide⟩

end Sudoku
